import Mathlib

/-!
Verification of the DocuMind LLM gateway (server.py and
whatsapp_llm_gateway.py) against its natural-language specification.

Python strings are modelled as `List Char`; Python machine-free integers as
`Int`; network calls as explicit oracles (`Except`-valued outcomes or lists
of attempt results); falsy/truthy `or`-chains, `strip`, `replace`,
`split(":", 1)`, `lower` and substring tests are embedded as executable
functions below.
-/

namespace Spec2Proof

abbrev Str := List Char

/-- Whitespace as Python `str.strip` sees it (ASCII subset). -/
def isSpaceChar (c : Char) : Bool :=
  c = ' ' || c = '\t' || c = '\n' || c = '\r'

/-- `isPre p l`: the list `p` is a prefix of `l` (Python `startswith`). -/
def isPre : Str → Str → Bool
  | [], _ => true
  | _ :: _, [] => false
  | a :: as, b :: bs => a = b && isPre as bs

/-- `containsSub p l`: `p` occurs as a contiguous substring of `l`
(Python `p in l`). -/
def containsSub (p : Str) : Str → Bool
  | [] => isPre p []
  | c :: rest => isPre p (c :: rest) || containsSub p rest

/-- Python `str.lstrip` (leading whitespace removed). -/
def stripL (l : Str) : Str := l.dropWhile isSpaceChar

/-- Python `str.rstrip` (trailing whitespace removed). -/
def stripR : Str → Str
  | [] => []
  | c :: rest =>
    let r := stripR rest
    if r = [] && isSpaceChar c then [] else c :: r

/-- Python `str.strip`. -/
def strip (l : Str) : Str := stripR (stripL l)

/-- The uppercase-to-lowercase table of the ASCII letters. -/
def lowTable : List (Char × Char) :=
  [('A', 'a'), ('B', 'b'), ('C', 'c'), ('D', 'd'), ('E', 'e'), ('F', 'f'),
   ('G', 'g'), ('H', 'h'), ('I', 'i'), ('J', 'j'), ('K', 'k'), ('L', 'l'),
   ('M', 'm'), ('N', 'n'), ('O', 'o'), ('P', 'p'), ('Q', 'q'), ('R', 'r'),
   ('S', 's'), ('T', 't'), ('U', 'u'), ('V', 'v'), ('W', 'w'), ('X', 'x'),
   ('Y', 'y'), ('Z', 'z')]

/-- First-match lookup in an association list. -/
def lookChar : List (Char × Char) → Char → Option Char
  | [], _ => none
  | (k, v) :: rest, c => if c = k then some v else lookChar rest c

/-- Python `str.lower`, modelled on the ASCII letters (enough for the
error-classification strings, which are ASCII). -/
def lowChar (c : Char) : Char :=
  match lookChar lowTable c with
  | some d => d
  | none => c

def lowerStr (l : Str) : Str := l.map lowChar

/-- Python `str.strip` on `String`. -/
def pyStrip (s : String) : String := String.mk (strip s.data)

/-- Python `a or b` over an optional string `a` (empty string is falsy)
with a string fallback `b`. -/
def orStr (a : Option String) (b : String) : String :=
  match a with
  | some s => if s = "" then b else s
  | none => b

/-- The characters of a string literal. -/
def strLit (s : String) : Str := s.data

/-! ### `_normalize_wa` (whatsapp_llm_gateway.py, lines 40-46) -/

/-- The replaced pattern `"whatsapp: "`. -/
def waPat : Str := 'w' :: 'h' :: 'a' :: 't' :: 's' :: 'a' :: 'p' :: 'p' :: ':' :: ' ' :: []

/-- The replacement `"whatsapp:+"`. -/
def waNew : Str := 'w' :: 'h' :: 'a' :: 't' :: 's' :: 'a' :: 'p' :: 'p' :: ':' :: '+' :: []

/-- The channel marker `"whatsapp:"` tested by `startswith`. -/
def waPre : Str := 'w' :: 'h' :: 'a' :: 't' :: 's' :: 'a' :: 'p' :: 'p' :: ':' :: []

/-- Python `s.replace("whatsapp: ", "whatsapp:+")`: left-to-right scan,
skipping past each replaced occurrence. Fuel-indexed so that it reduces;
`waReplace` supplies fuel `l.length`, always enough. -/
def waReplaceF : Nat → Str → Str
  | 0, l => l
  | _ + 1, [] => []
  | n + 1, c :: rest =>
    if isPre waPat (c :: rest) then waNew ++ waReplaceF n (rest.drop 9)
    else c :: waReplaceF n rest

def waReplace (l : Str) : Str := waReplaceF l.length l

/-- Python `s.split(":", 1)` restricted to the first colon: returns the part
before and after the first `':'`, if any. -/
def splitAtColon : Str → Option (Str × Str)
  | [] => none
  | c :: rest =>
    if c = ':' then some ([], rest)
    else (splitAtColon rest).map fun p => (c :: p.1, p.2)

/-- `_normalize_wa` from whatsapp_llm_gateway.py. -/
def normalizeWa (s : Str) : Str :=
  let t := waReplace (strip s)
  if isPre waPre t then
    match splitAtColon t with
    | some (left, right) =>
      let r := strip right
      let r2 := match r with
        | [] => ([] : Str)
        | d :: ds => if d.isDigit then '+' :: d :: ds else d :: ds
      left ++ ':' :: r2
    | none => t
  else t

/-! ### `_resolve_timeout_ms` (server.py, lines 84-127)

Caller hints are modelled after parsing: `timeoutMs` is the parsed
`timeout_ms` value and `timeoutSec` the parsed `int(float(timeout) * 1000)`
value; a key that is absent, `None`, or fails to parse is `none` (in the
source, a parse failure leaves `t_ms = None` and `src` untouched, so it is
indistinguishable from an absent key). -/

structure TimeoutHints where
  timeoutMs : Option Int
  timeoutSec : Option Int

/-- Raw client-supplied value after precedence (`timeout_ms` over `timeout`). -/
def requestedOf (h : TimeoutHints) : Option Int :=
  match h.timeoutMs with
  | some v => some v
  | none => h.timeoutSec

/-- `_resolve_timeout_ms`: returns `(effective_timeout_ms, source)`. -/
def resolveTimeoutMs (defaultMs ceilingMs : Int) (h : TimeoutHints) : Int × String :=
  match requestedOf h with
  | none => (max 1000 (min defaultMs ceilingMs), "default")
  | some r =>
    let clamped := max 1000 (min r ceilingMs)
    if clamped < r then (clamped, "clamped") else (clamped, "client")

/-! ### `_clamp_tokens` (server.py, lines 71-82) -/

/-- A requested token cap as `_clamp_tokens` receives it: absent (`None`),
a numeric value, or a non-numeric truthy value on which `int()` raises. -/
inductive TokenReq where
  | absent
  | num (n : Int)
  | invalid
deriving DecidableEq

/-- `_clamp_tokens` with the server ceiling `serverMax` (env `MODEL_TOKENS`).
`num 0` is falsy in Python (`if not req_cap`), hence returns `serverMax`. -/
def clampTokens (serverMax : Int) : TokenReq → Int
  | .absent => serverMax
  | .num n =>
    if n = 0 then serverMax
    else
      let cap := if n < 1 then 1 else n
      if cap > serverMax then serverMax else cap
  | .invalid =>
    let cap := if serverMax < 1 then 1 else serverMax
    if cap > serverMax then serverMax else cap

/-! ### `_extract_text` (whatsapp_llm_gateway.py, lines 48-52)

String-valued fields of the payload are modelled; `none` stands for an
absent key (or `None` value). -/

structure ChoiceElem where
  text : Option String
  messageContent : Option String

structure Payload where
  reply : Option String
  response : Option String
  text : Option String
  choices : Option (List ChoiceElem)

/-- The `or`-chain over the three top-level keys. -/
def topVal (d : Payload) : String :=
  orStr d.reply (orStr d.response (orStr d.text ""))

/-- `_extract_text`. -/
def extractText (d : Payload) : String :=
  let t := pyStrip (topVal d)
  if t = "" then
    match d.choices with
    | some (c :: _) => pyStrip (orStr c.messageContent "")
    | _ => t
  else t

/-! ### `_is_retryable` (whatsapp_llm_gateway.py, lines 54-57) -/

/-- `_is_retryable` applied to the failure's error text
(`meta["data"]["error"]`). -/
def isRetryable (err : String) : Bool :=
  containsSub (strLit " 50") err.data || containsSub (strLit "502") err.data ||
  containsSub (strLit "bad gateway") (lowerStr err.data) ||
  containsSub (strLit "timeout") (lowerStr err.data)

/-! ### `_fetch_local_context` (whatsapp_llm_gateway.py, lines 60-86) -/

/-- A `sources` / `evidence` field value: absent, a sequence of labels, or a
mapping whose values are taken. Labels are modelled as already stringified. -/
inductive SourcesVal where
  | absent
  | listOf (l : List String)
  | dictOf (vals : List String)

def svTruthy : SourcesVal → Bool
  | .absent => false
  | .listOf l => !l.isEmpty
  | .dictOf v => !v.isEmpty

def svToList : SourcesVal → List String
  | .absent => []
  | .listOf l => l
  | .dictOf v => v

/-- A successful JSON body of the retrieval call. -/
structure FetchResp where
  context : Option String
  answer : Option String
  sources : SourcesVal
  evidence : SourcesVal

/-- `_fetch_local_context`: `outcome` is the retrieval call's result — any
exception inside the `try` (network error, `raise_for_status` on non-2xx,
JSON decode failure) is `Except.error`. -/
def fetchLocalContext (q : String) (timeoutMs : Int) (outcome : Except Unit FetchResp) :
    String × List String :=
  let subBudget : Int := max 2000 (min 6000 (timeoutMs - 1500))
  match outcome with
  | .error _ => ( "", [])
  | .ok j =>
    let ctx := pyStrip (orStr j.context (orStr j.answer ""))
    let sv := if svTruthy j.sources then j.sources
      else if svTruthy j.evidence then j.evidence else .listOf []
    let labels := ((svToList sv).filter fun s => s ≠ "").map
      fun s => String.mk (s.data.take 80)
    (ctx, labels)

/-! ### `_build_prompt` (whatsapp_llm_gateway.py, lines 101-115) -/

def buildPrompt (q ctx : String) (sources : List String) : String :=
  let srcLine := if sources.isEmpty then "" else
    "Sources: " ++ String.intercalate "; " ((sources.take 6).map fun s => "[" ++ s ++ "]")
  "You are answering for WhatsApp in 3–6 short bullets.\n" ++
  "Use ONLY the CONTEXT below. If the answer is not in the context, say: 'Not found locally.'\n" ++
  "Mirror the user's language (Hindi/English). Keep it concise.\n" ++
  srcLine ++ "\n\n" ++ "CONTEXT:\n" ++ ctx ++ "\n\n" ++
  "QUESTION: " ++ q ++ "\n" ++ "ANSWER:"

/-- The no-context prompt variant used when the fetched context is empty. -/
def noCtxPrompt (q : String) : String :=
  "Answer briefly in 3–5 bullets. Mirror user language (Hindi/English).\n\n" ++
  "Question: " ++ q ++ "\nAnswer:"

/-! ### `_answer_with_retry` (whatsapp_llm_gateway.py, lines 117-141)

Each call to `_call_chat_prompt` is abstracted by an oracle outcome: its
`(ok, text, meta)` triple, with `meta` reduced to the fields the loop reads. -/

structure AttemptMeta where
  status : String
  errorText : String
deriving DecidableEq

structure Attempt where
  ok : Bool
  text : String
  meta : AttemptMeta
deriving DecidableEq

structure RetryResult where
  ok : Bool
  text : String
  meta : AttemptMeta
  calls : Nat
  sleeps : List ℚ
deriving DecidableEq

/-- The retry loop of `_answer_with_retry` over the sequence of outcomes the
generation client would produce (the list holds the outcome of attempt `i` at
position `i - 1`, cut to `tries` entries by the caller). A nonempty tail
corresponds to `i < tries`. `delay *= 1.6` is modelled exactly as `* (8/5)`;
`sleeps` records the requested backoff delays in seconds. -/
def retryGo (delay : ℚ) : List Attempt → RetryResult
  | [] => ⟨false, "", ⟨ "ERR", "unknown"⟩, 0, []⟩
  | a :: rest =>
    if a.ok then ⟨true, a.text, a.meta, 1, []⟩
    else if isRetryable a.meta.errorText && !rest.isEmpty then
      let r := retryGo (delay * (8 / 5)) rest
      ⟨r.ok, r.text, r.meta, r.calls + 1, delay :: r.sleeps⟩
    else ⟨false, "", a.meta, 1, []⟩

/-- The loop entered with `delay = 0.5`. -/
def answerRetryLoop (atts : List Attempt) : RetryResult :=
  retryGo (1 / 2 : ℚ) atts

/-- The backoff schedule after `n` retried attempts: `0.5 * 1.6 ^ k` seconds
for `k < n`. -/
def sleepsUpTo (n : Nat) : List ℚ :=
  (List.range n).map fun k => (1 / 2 : ℚ) * (8 / 5) ^ k

/-- A retryable failed attempt (HTTP 502 from the model gateway). -/
def att502 : Attempt := ⟨false, "", ⟨ "502", "HTTP 502"⟩⟩

/-- A successful attempt. -/
def attOk : Attempt := ⟨true, "pong", ⟨ "200", ""⟩⟩

/-- A fatal (non-retryable) failed attempt (HTTP 400). -/
def att400 : Attempt := ⟨false, "", ⟨ "400", "HTTP 400"⟩⟩

/-- `_answer_with_retry`: fetch context, build the prompt, run the retry
loop for `tries` attempts with outcomes drawn from the oracle `att`. The
`Attempt` oracle covers exactly the generation calls on which
`_call_chat_prompt` returns a triple; its uncaught-exception paths are
modelled by `answerWithRetryE` below. -/
def answerWithRetry (q : String) (maxTokens timeoutMs : Int) (tries : Nat)
    (fetchOutcome : Except Unit FetchResp) (att : Nat → Attempt) : RetryResult :=
  let fetched := fetchLocalContext q timeoutMs fetchOutcome
  let prompt := if fetched.1 = "" then noCtxPrompt q
    else buildPrompt q fetched.1 fetched.2
  let tokensPerCall := min maxTokens 128
  answerRetryLoop ((List.range tries).map att)

/-! ### `api_answer` (whatsapp_llm_gateway.py, lines 185-200) -/

/-- Python `a or b` over an optional integer (`0` and `None` are falsy). -/
def orInt (a : Option Int) (b : Int) : Int :=
  match a with
  | some v => if v = 0 then b else v
  | none => b

/-- Python `a or b` when both operands are optional integers
(`tokens_req = max_tokens or n_predict`). -/
def orOpt (a b : Option Int) : Option Int :=
  match a with
  | some v => if v = 0 then b else some v
  | none => b

/-- What `api_answer` hands back: the answer string of its JSON body, plus
the pipeline's `ok` flag (visible to the handler, dropped from the JSON). -/
structure AnswerOut where
  answer : String
  pipelineOk : Bool
deriving DecidableEq

/-- `api_answer`: body fields `q`, `timeout_ms`, `max_tokens` modelled after
JSON parsing (numeric hints as in §4.7's contract `max_tokens_hint : optional
int`); `waTimeoutDefault` and `waMaxTokensDefault` are the env defaults
`WA_LLM_TIMEOUT_MS` and `WA_MAX_TOKENS`. Like `answerWithRetry`, this is the
exception-free projection; `apiAnswerE` below also models the generation
calls on which `_call_chat_prompt` raises. -/
def apiAnswer (waTimeoutDefault waMaxTokensDefault : Int) (q : Option String)
    (timeoutMsHint maxTokensHint : Option Int)
    (fetchOutcome : Except Unit FetchResp) (att : Nat → Attempt) : AnswerOut :=
  let qs := pyStrip (orStr q "")
  let t := orInt timeoutMsHint waTimeoutDefault
  let mx := orInt maxTokensHint waMaxTokensDefault
  let r := answerWithRetry qs mx t 3 fetchOutcome att
  let text := if r.ok then r.text else "LLM busy; try again."
  ⟨text, r.ok⟩

/-! ### `call_llama` and `chat_get` (server.py, lines 202-206 and 220-249) -/

structure HTTPErr where
  code : Nat
  detail : String
deriving DecidableEq

/-- `call_llama`: rejects an empty prompt with 422, otherwise strips the
prompt and dispatches to the backend (server or subprocess), abstracted as
the oracle `backend`. -/
def callLlama (prompt : String) (nPredict : Int)
    (backend : String → Int → Except HTTPErr String) : Except HTTPErr String :=
  if pyStrip prompt = "" then .error ⟨422, "Prompt is empty."⟩
  else backend (pyStrip prompt) nPredict

structure ChatResp where
  reply : String
  usedTokens : Int
  timeoutMsUsed : Int
  timeoutSource : String

/-- `GET /chat` (`chat_get`): query parameters after FastAPI coercion
(`max_tokens`, `n_predict` are optional ints; timeout hints as parsed by
`_resolve_timeout_ms`). -/
def chatGet (defaultMs ceilingMs serverMaxTokens : Int)
    (prompt q : Option String) (maxTokens nPredict : Option Int)
    (hints : TimeoutHints)
    (backend : String → Int → Except HTTPErr String) : Except HTTPErr ChatResp :=
  let text := pyStrip (orStr prompt (orStr q ""))
  if text = "" then .error ⟨422, "Missing 'prompt' (or 'q') parameter"⟩
  else
    let tokensReq : TokenReq := match orOpt maxTokens nPredict with
      | none => .absent
      | some v => .num v
    let nTokens := clampTokens serverMaxTokens tokensReq
    let (tms, tsrc) := resolveTimeoutMs defaultMs ceilingMs hints
    match callLlama text nTokens backend with
    | .error e => .error e
    | .ok ans => .ok ⟨ans, nTokens, tms, tsrc⟩

/-! ### `_call_chat_prompt` with its exception paths
(whatsapp_llm_gateway.py, lines 89-99)

`_call_chat_prompt` catches only `httpx.HTTPError`. When a response carries
an `application/json` content type, `r.json()` raises `json.JSONDecodeError`
on a malformed body, and `_extract_text` raises `AttributeError` when the
parsed body is not a mapping; neither exception is caught there, in
`_answer_with_retry`, or in `api_answer`. The embedding below models these
paths explicitly; the `Attempt`-oracle embedding above is its
exception-free projection. -/

/-- A Python exception escaping `_call_chat_prompt` uncaught:
`json.JSONDecodeError` from `r.json()`, or `AttributeError` from
`_extract_text` on a non-mapping JSON value. -/
inductive PyExc where
  | jsonDecodeError
  | attributeError
deriving DecidableEq

/-- The body of a generation-backend HTTP response: unparseable as JSON, a
JSON value that is not an object, or a JSON object (modelled as `Payload`). -/
inductive RespBody where
  | malformed
  | nonMapping
  | mapping (d : Payload)

/-- The transport outcome of one `cli.post` call: an `httpx.HTTPError`
raised by the transport (which `_call_chat_prompt` catches), or a response
with a status code, an `application/json` content-type flag, and a body. -/
inductive CallOutcome where
  | httpError (msg : String)
  | response (status : Nat) (isJson : Bool) (body : RespBody)

/-- `_call_chat_prompt`: an `Except.error` is an exception it does not
catch. With a non-JSON content type `data = {}` and the extracted text is
empty, so even a 200 is classified as a failure `HTTP <status>`. -/
def callChatPrompt (o : CallOutcome) : Except PyExc (Bool × String × AttemptMeta) :=
  match o with
  | .httpError msg => .ok (false, "", ⟨ "ERR", msg⟩)
  | .response status isJson body =>
    if isJson then
      match body with
      | .malformed => .error .jsonDecodeError
      | .nonMapping => .error .attributeError
      | .mapping d =>
        let text := extractText d
        if status = 200 ∧ text ≠ "" then .ok (true, text, ⟨ "200", ""⟩)
        else .ok (false, "", ⟨toString status, "HTTP " ++ toString status⟩)
    else .ok (false, "", ⟨toString status, "HTTP " ++ toString status⟩)

/-- The retry loop of `_answer_with_retry` over transport outcomes: an
exception raised by any attempt propagates out of the loop, which has no
enclosing handler. -/
def retryGoE (delay : ℚ) : List CallOutcome → Except PyExc RetryResult
  | [] => .ok ⟨false, "", ⟨ "ERR", "unknown"⟩, 0, []⟩
  | o :: rest =>
    match callChatPrompt o with
    | .error e => .error e
    | .ok (ok1, text, meta) =>
      if ok1 then .ok ⟨true, text, meta, 1, []⟩
      else if isRetryable meta.errorText && !rest.isEmpty then
        match retryGoE (delay * (8 / 5)) rest with
        | .error e => .error e
        | .ok r => .ok ⟨r.ok, r.text, r.meta, r.calls + 1, delay :: r.sleeps⟩
      else .ok ⟨false, "", meta, 1, []⟩

/-- `_answer_with_retry` over transport outcomes. -/
def answerWithRetryE (q : String) (maxTokens timeoutMs : Int) (tries : Nat)
    (fetchOutcome : Except Unit FetchResp) (calls : Nat → CallOutcome) :
    Except PyExc RetryResult :=
  let fetched := fetchLocalContext q timeoutMs fetchOutcome
  let prompt := if fetched.1 = "" then noCtxPrompt q
    else buildPrompt q fetched.1 fetched.2
  let tokensPerCall := min maxTokens 128
  retryGoE (1 / 2 : ℚ) ((List.range tries).map calls)

/-- `api_answer` over transport outcomes: an exception from the pipeline
reaches the caller, `api_answer` having no handler either. -/
def apiAnswerE (waTimeoutDefault waMaxTokensDefault : Int) (q : Option String)
    (timeoutMsHint maxTokensHint : Option Int)
    (fetchOutcome : Except Unit FetchResp) (calls : Nat → CallOutcome) :
    Except PyExc AnswerOut :=
  let qs := pyStrip (orStr q "")
  let t := orInt timeoutMsHint waTimeoutDefault
  let mx := orInt maxTokensHint waMaxTokensDefault
  match answerWithRetryE qs mx t 3 fetchOutcome calls with
  | .error e => .error e
  | .ok r => .ok ⟨if r.ok then r.text else "LLM busy; try again.", r.ok⟩

/-- Outcomes on which `_call_chat_prompt` returns rather than raises. -/
def callOk (o : CallOutcome) : Bool :=
  match callChatPrompt o with
  | .ok _ => true
  | .error _ => false

/-- The attempt triple of an exception-free outcome — the `Attempt` the
oracle embedding sees. The error case is never reached under `callOk`. -/
def attemptOf (o : CallOutcome) : Attempt :=
  match callChatPrompt o with
  | .ok (ok1, text, meta) => ⟨ok1, text, meta⟩
  | .error _ => ⟨false, "", ⟨ "ERR", ""⟩⟩

/-! ## Infrastructure: prefix and substring lemmas -/

theorem isPre_length {p l : Str} (h : isPre p l = true) : p.length ≤ l.length := by
  induction p generalizing l with
  | nil => simp
  | cons a as ih =>
    cases l with
    | nil => simp [isPre] at h
    | cons b bs =>
      simp only [isPre, Bool.and_eq_true] at h
      simpa using ih h.2

theorem isPre_getElem {p l : Str} (h : isPre p l = true) :
    ∀ j, j < p.length → l[j]? = p[j]? := by
  induction p generalizing l with
  | nil => intro j hj; simp at hj
  | cons a as ih =>
    cases l with
    | nil => simp [isPre] at h
    | cons b bs =>
      simp only [isPre, Bool.and_eq_true, decide_eq_true_eq] at h
      intro j hj
      cases j with
      | zero => simp [h.1]
      | succ j => simpa using ih h.2 j (by simpa using hj)

theorem isPre_of_getElem {p l : Str} (h : ∀ j, j < p.length → l[j]? = p[j]?) :
    isPre p l = true := by
  induction p generalizing l with
  | nil => rfl
  | cons a as ih =>
    cases l with
    | nil =>
      have h0 := h 0 (by simp)
      simp at h0
    | cons b bs =>
      have h0 := h 0 (by simp)
      simp only [List.getElem?_cons_zero, Option.some_inj] at h0
      simp only [isPre, Bool.and_eq_true, decide_eq_true_eq]
      refine ⟨h0.symm, ih fun j hj => ?_⟩
      have := h (j + 1) (by simpa using Nat.succ_lt_succ hj)
      simpa using this

theorem containsSub_iff {p l : Str} :
    containsSub p l = true ↔ ∃ i, isPre p (l.drop i) = true := by
  induction l with
  | nil =>
    simp only [containsSub]
    constructor
    · intro h; exact ⟨0, h⟩
    · rintro ⟨i, hi⟩; simpa using hi
  | cons c rest ih =>
    simp only [containsSub, Bool.or_eq_true, ih]
    constructor
    · rintro (h | ⟨i, hi⟩)
      · exact ⟨0, h⟩
      · exact ⟨i + 1, hi⟩
    · rintro ⟨i, hi⟩
      cases i with
      | zero => exact Or.inl hi
      | succ i => exact Or.inr ⟨i, hi⟩

theorem isPre_append_self (p r : Str) : isPre p (p ++ r) = true := by
  induction p with
  | nil => rfl
  | cons a as ih => simp [isPre, ih]

theorem isPre_append_cancel (p q x : Str) : isPre (p ++ q) (p ++ x) = isPre q x := by
  induction p with
  | nil => rfl
  | cons a as ih => simp [isPre, ih]

theorem isPre_take {p l : Str} {k : Nat} (h : isPre p (l.take k) = true) :
    isPre p l = true := by
  apply isPre_of_getElem
  intro j hj
  have hg := isPre_getElem h j hj
  rw [List.getElem?_take] at hg
  by_cases hjk : j < k
  · rwa [if_pos hjk] at hg
  · rw [if_neg hjk] at hg
    have : p[j]? ≠ none := by
      intro hn
      rw [List.getElem?_eq_none_iff] at hn
      omega
    exact absurd hg.symm this

theorem containsSub_of_drop {p l : Str} {k : Nat}
    (h : containsSub p (l.drop k) = true) : containsSub p l = true := by
  obtain ⟨i, hi⟩ := containsSub_iff.mp h
  rw [List.drop_drop] at hi
  exact containsSub_iff.mpr ⟨k + i, hi⟩

theorem containsSub_of_take {p l : Str} {k : Nat}
    (h : containsSub p (l.take k) = true) : containsSub p l = true := by
  obtain ⟨i, hi⟩ := containsSub_iff.mp h
  rw [List.drop_take] at hi
  exact containsSub_iff.mpr ⟨i, isPre_take hi⟩

theorem dropWhile_eq_drop (f : Char → Bool) (l : Str) :
    ∃ k, l.dropWhile f = l.drop k := by
  induction l with
  | nil => exact ⟨0, rfl⟩
  | cons c rest ih =>
    by_cases hc : f c = true
    · obtain ⟨k, hk⟩ := ih
      exact ⟨k + 1, by simpa [List.dropWhile_cons, hc] using hk⟩
    · exact ⟨0, by simp [List.dropWhile_cons, hc]⟩

theorem stripR_eq_take (l : Str) : ∃ k, stripR l = l.take k := by
  induction l with
  | nil => exact ⟨0, rfl⟩
  | cons c rest ih =>
    obtain ⟨k, hk⟩ := ih
    by_cases hc : stripR rest = [] ∧ isSpaceChar c = true
    · exact ⟨0, by simp [stripR, hc.1, hc.2]⟩
    · refine ⟨k + 1, ?_⟩
      simp only [stripR, List.take_succ_cons]
      rw [if_neg (by simpa using hc), hk]

theorem containsSub_of_stripL {p l : Str}
    (h : containsSub p (stripL l) = true) : containsSub p l = true := by
  obtain ⟨k, hk⟩ := dropWhile_eq_drop isSpaceChar l
  rw [stripL, hk] at h
  exact containsSub_of_drop h

theorem containsSub_of_stripR {p l : Str}
    (h : containsSub p (stripR l) = true) : containsSub p l = true := by
  obtain ⟨k, hk⟩ := stripR_eq_take l
  rw [hk] at h
  exact containsSub_of_take h

theorem containsSub_of_strip {p l : Str}
    (h : containsSub p (strip l) = true) : containsSub p l = true :=
  containsSub_of_stripL (containsSub_of_stripR h)

/-! ## Infrastructure: the `replace("whatsapp: ", "whatsapp:+")` scan -/

theorem waReplaceF_length {n : Nat} {l : Str} (h : l.length ≤ n) :
    (waReplaceF n l).length = l.length := by
  induction n generalizing l with
  | zero => rfl
  | succ n ih =>
    cases l with
    | nil => rfl
    | cons c rest =>
      by_cases hp : isPre waPat (c :: rest) = true
      · have h10 := isPre_length hp
        simp only [waPat, List.length_cons] at h10
        simp only [waReplaceF, if_pos hp, List.length_append]
        have hlen : (rest.drop 9).length ≤ n := by
          simp only [List.length_drop]
          simp only [List.length_cons] at h
          omega
        rw [ih hlen]
        simp only [waNew, List.length_drop, List.length_cons]
        simp only [List.length_cons, List.length_nil]
        omega
      · simp only [waReplaceF, if_neg hp, List.length_cons]
        simp only [List.length_cons] at h
        rw [ih (by omega)]

theorem waReplaceF_getElem {n : Nat} {l : Str} (h : l.length ≤ n) (i : Nat) :
    (waReplaceF n l)[i]? = l[i]? ∨
      ((waReplaceF n l)[i]? = some '+' ∧ l[i]? = some ' ') := by
  induction n generalizing l i with
  | zero => exact Or.inl rfl
  | succ n ih =>
    cases l with
    | nil => exact Or.inl rfl
    | cons c rest =>
      by_cases hp : isPre waPat (c :: rest) = true
      · simp only [waReplaceF, if_pos hp]
        by_cases hi : i < 10
        · have hl : (c :: rest)[i]? = waPat[i]? :=
            isPre_getElem hp i (by simp [waPat]; omega)
          rw [List.getElem?_append, hl]
          rw [if_pos (by simp [waNew]; omega)]
          interval_cases i <;> simp [waPat, waNew]
        · have hlen : (rest.drop 9).length ≤ n := by
            simp only [List.length_drop]
            simp only [List.length_cons] at h
            omega
          rw [List.getElem?_append_right (by simp [waNew]; omega)]
          have hnew : (waNew : Str).length = 10 := by simp [waNew]
          rw [hnew]
          have hr : (c :: rest)[i]? = (rest.drop 9)[i - 10]? := by
            rw [List.getElem?_drop]
            have : 9 + (i - 10) = i - 1 := by omega
            rw [this]
            cases i with
            | zero => omega
            | succ j => simp
          rw [hr]
          exact ih hlen (i - 10)
      · simp only [waReplaceF, if_neg hp]
        cases i with
        | zero => exact Or.inl (by simp)
        | succ j =>
          simp only [List.getElem?_cons_succ]
          simp only [List.length_cons] at h
          exact ih (by omega) j

theorem waReplaceF_plus {n : Nat} {l : Str} {i : Nat} (h : l.length ≤ n)
    (ho : isPre waPat (l.drop i) = true) :
    (waReplaceF n l)[i + 9]? = some '+' := by
  induction n generalizing l i with
  | zero =>
    have : l = [] := List.length_eq_zero.mp (Nat.le_antisymm h (Nat.zero_le _))
    subst this
    simp only [List.drop_nil] at ho
    simp [isPre, waPat] at ho
  | succ n ih =>
    cases l with
    | nil => simp only [List.drop_nil] at ho; simp [isPre, waPat] at ho
    | cons c rest =>
      by_cases hp : isPre waPat (c :: rest) = true
      · simp only [waReplaceF, if_pos hp]
        by_cases hi : i < 10
        · rcases Nat.eq_zero_or_pos i with rfl | hipos
          · rw [List.getElem?_append, if_pos (by simp [waNew])]
            simp [waNew]
          · exfalso
            have h1 : (c :: rest)[i]? = waPat[i]? :=
              isPre_getElem hp i (by simp [waPat]; omega)
            have h2 : ((c :: rest).drop i)[0]? = waPat[0]? :=
              isPre_getElem ho 0 (by simp [waPat])
            rw [List.getElem?_drop] at h2
            have hw : waPat[i]? = some 'w' := by
              rw [← h1]
              have : i + 0 = i := by omega
              rw [this] at h2
              rw [h2]; simp [waPat]
            interval_cases i <;> simp [waPat] at hw <;> omega
        · have hlen : (rest.drop 9).length ≤ n := by
            simp only [List.length_drop]
            simp only [List.length_cons] at h
            omega
          rw [List.getElem?_append_right (by simp [waNew]; omega)]
          have hnew : (waNew : Str).length = 10 := by simp [waNew]
          rw [hnew]
          have hidx : i + 9 - 10 = (i - 10) + 9 := by omega
          rw [hidx]
          apply ih hlen
          have : (rest.drop 9).drop (i - 10) = (c :: rest).drop i := by
            have h1 : (rest.drop 9 : Str) = (c :: rest).drop 10 := by simp
            rw [h1, List.drop_drop]
            have : 10 + (i - 10) = i := by omega
            rw [this]
          rwa [this]
      · simp only [waReplaceF, if_neg hp]
        cases i with
        | zero => rw [List.drop_zero] at ho; exact absurd ho hp
        | succ j =>
          have : j + 1 + 9 = (j + 9) + 1 := by omega
          rw [this, List.getElem?_cons_succ]
          simp only [List.length_cons] at h
          exact ih (by omega) (by simpa using ho)

theorem waReplaceF_noPat {n : Nat} {l : Str} (h : l.length ≤ n) :
    containsSub waPat (waReplaceF n l) = false := by
  cases hq : containsSub waPat (waReplaceF n l) with
  | false => rfl
  | true =>
    exfalso
    obtain ⟨i, hi⟩ := containsSub_iff.mp hq
    have hout : ∀ j, j < 10 → (waReplaceF n l)[i + j]? = waPat[j]? := by
      intro j hj
      have := isPre_getElem hi j (by simp [waPat]; omega)
      rwa [List.getElem?_drop] at this
    have hl : ∀ j, j < 10 → l[i + j]? = waPat[j]? := by
      intro j hj
      rcases waReplaceF_getElem h (i + j) with heq | ⟨hplus, _⟩
      · rw [← heq]; exact hout j hj
      · exfalso
        have hj2 := hout j hj
        rw [hplus] at hj2
        have hmem : '+' ∈ waPat := List.getElem?_mem hj2.symm
        simp [waPat] at hmem
    have hocc : isPre waPat (l.drop i) = true := by
      apply isPre_of_getElem
      intro j hj
      rw [List.getElem?_drop]
      exact hl j (by simpa [waPat] using hj)
    have h9 := waReplaceF_plus h hocc
    have h9b := hout 9 (by omega)
    rw [h9] at h9b
    simp [waPat] at h9b

theorem waReplaceF_id {n : Nat} {l : Str}
    (hfree : containsSub waPat l = false) : waReplaceF n l = l := by
  induction n generalizing l with
  | zero => rfl
  | succ n ih =>
    cases l with
    | nil => rfl
    | cons c rest =>
      simp only [containsSub, Bool.or_eq_false_iff] at hfree
      simp only [waReplaceF]
      rw [if_neg (by simp [hfree.1]), ih hfree.2]

theorem waReplace_length (l : Str) : (waReplace l).length = l.length :=
  waReplaceF_length le_rfl

theorem waReplace_getElem (l : Str) (i : Nat) :
    (waReplace l)[i]? = l[i]? ∨
      ((waReplace l)[i]? = some '+' ∧ l[i]? = some ' ') :=
  waReplaceF_getElem le_rfl i

theorem waReplace_noPat (l : Str) : containsSub waPat (waReplace l) = false :=
  waReplaceF_noPat le_rfl

theorem waReplace_id {l : Str} (hfree : containsSub waPat l = false) :
    waReplace l = l :=
  waReplaceF_id hfree

/-! ## Infrastructure: `strip` and `split` -/

theorem stripL_cons_false {c : Char} {x : Str} (hc : isSpaceChar c = false) :
    stripL (c :: x) = c :: x := by
  simp [stripL, List.dropWhile_cons, hc]

theorem stripL_head {l : Str} {c : Char} (h : (stripL l).head? = some c) :
    isSpaceChar c = false := by
  induction l with
  | nil => simp [stripL] at h
  | cons d rest ih =>
    by_cases hd : isSpaceChar d = true
    · rw [stripL, List.dropWhile_cons, if_pos hd] at h
      exact ih h
    · rw [stripL, List.dropWhile_cons, if_neg hd] at h
      simp only [List.head?_cons, Option.some_inj] at h
      subst h
      simpa using hd

theorem stripR_getLast {l : Str} {c : Char} (h : (stripR l).getLast? = some c) :
    isSpaceChar c = false := by
  induction l with
  | nil => simp [stripR] at h
  | cons d rest ih =>
    simp only [stripR] at h
    by_cases hcond : (decide (stripR rest = []) && isSpaceChar d) = true
    · rw [if_pos hcond] at h
      simp at h
    · rw [if_neg hcond] at h
      cases hr : stripR rest with
      | nil =>
        rw [hr] at h
        simp only [List.getLast?_singleton, Option.some_inj] at h
        subst h
        rw [hr] at hcond
        simpa using hcond
      | cons e es =>
        rw [hr, List.getLast?_cons_cons] at h
        rw [← hr] at h
        exact ih h

theorem stripL_eq_self {l : Str}
    (h : ∀ c, l.head? = some c → isSpaceChar c = false) : stripL l = l := by
  cases l with
  | nil => rfl
  | cons d rest => exact stripL_cons_false (h d (by simp))

theorem stripR_eq_self {l : Str}
    (h : ∀ c, l.getLast? = some c → isSpaceChar c = false) : stripR l = l := by
  induction l with
  | nil => rfl
  | cons d rest ih =>
    cases rest with
    | nil =>
      have hd := h d (by simp)
      simp [stripR, hd]
    | cons e es =>
      have hr : stripR (e :: es) = e :: es :=
        ih fun c hc => h c (by rwa [List.getLast?_cons_cons])
      have hstep : stripR (d :: e :: es) =
          (if (decide (stripR (e :: es) = []) && isSpaceChar d) = true then []
           else d :: stripR (e :: es)) := rfl
      rw [hstep, hr, if_neg (by simp)]

theorem strip_eq_self {l : Str}
    (hh : ∀ c, l.head? = some c → isSpaceChar c = false)
    (hl : ∀ c, l.getLast? = some c → isSpaceChar c = false) : strip l = l := by
  rw [strip, stripL_eq_self hh]
  exact stripR_eq_self hl

theorem head?_take {l : Str} {k : Nat} {c : Char}
    (h : (l.take k).head? = some c) : l.head? = some c := by
  cases k with
  | zero => simp at h
  | succ k =>
    cases l with
    | nil => simp at h
    | cons d rest => simpa using h

theorem strip_head {l : Str} {c : Char} (h : (strip l).head? = some c) :
    isSpaceChar c = false := by
  obtain ⟨k, hk⟩ := stripR_eq_take (stripL l)
  rw [strip, hk] at h
  exact stripL_head (head?_take h)

theorem strip_getLast {l : Str} {c : Char} (h : (strip l).getLast? = some c) :
    isSpaceChar c = false := by
  rw [strip] at h
  exact stripR_getLast h

theorem strip_strip (l : Str) : strip (strip l) = strip l :=
  strip_eq_self (fun _ hd => strip_head hd) (fun _ hd => strip_getLast hd)

theorem strip_parts {r : Str} (h : strip r = r) :
    stripL r = r ∧ stripR r = r := by
  obtain ⟨k, hk⟩ := dropWhile_eq_drop isSpaceChar r
  obtain ⟨k2, hk2⟩ := stripR_eq_take (stripL r)
  have hlen : (strip r).length = r.length := by rw [h]
  have l1 : (stripL r).length ≤ r.length := by
    rw [stripL, hk]; simp [List.length_drop]
  have l2 : (strip r).length ≤ (stripL r).length := by
    rw [strip, hk2]; simp [List.length_take]
  have e1 : (stripL r).length = r.length := by omega
  have hL : stripL r = r := by
    by_cases hr : r = []
    · subst hr; rfl
    · rw [stripL, hk] at e1 ⊢
      have hpos : 0 < r.length := List.length_pos.mpr hr
      simp only [List.length_drop] at e1
      have : k = 0 := by omega
      rw [this, List.drop_zero]
  refine ⟨hL, ?_⟩
  rw [strip, hL] at h
  exact h

theorem stripR_append {l m : Str} (hm : stripR m = m) (hne : m ≠ []) :
    stripR (l ++ m) = l ++ m := by
  induction l with
  | nil => simpa
  | cons c l2 ih =>
    have hstep : stripR (c :: (l2 ++ m)) =
        (if (decide (stripR (l2 ++ m) = []) && isSpaceChar c) = true then []
         else c :: stripR (l2 ++ m)) := rfl
    rw [List.cons_append, hstep, ih, if_neg (by simp [hne])]

theorem splitAtColon_waPre (r : Str) :
    splitAtColon (waPre ++ r) = some (strLit "whatsapp", r) := by
  show splitAtColon
      ('w' :: 'h' :: 'a' :: 't' :: 's' :: 'a' :: 'p' :: 'p' :: ':' :: r) = _
  simp [splitAtColon, strLit]

/-! ## Infrastructure: `_normalize_wa` as a whole -/

theorem isPre_take_eq {p l : Str} (h : isPre p l = true) : l.take p.length = p := by
  induction p generalizing l with
  | nil => simp
  | cons a as ih =>
    cases l with
    | nil => simp [isPre] at h
    | cons b bs =>
      simp only [isPre, Bool.and_eq_true, decide_eq_true_eq] at h
      simp only [List.length_cons, List.take_succ_cons, ih h.2]
      rw [h.1]

theorem waPat_split : waPat = waPre ++ (' ' :: []) := rfl

theorem isPre_waPat_append (x : Str) :
    isPre waPat (waPre ++ x) = isPre (' ' :: []) x := by
  rw [waPat_split]
  exact isPre_append_cancel waPre (' ' :: []) x

theorem containsSub_waPre_append (x : Str) :
    containsSub waPat (waPre ++ x) =
      (isPre waPat (waPre ++ x) || containsSub waPat x) := by
  show containsSub waPat
      ('w' :: 'h' :: 'a' :: 't' :: 's' :: 'a' :: 'p' :: 'p' :: ':' :: x) = _
  simp only [containsSub]
  have h2 : isPre waPat ('h' :: 'a' :: 't' :: 's' :: 'a' :: 'p' :: 'p' :: ':' :: x) = false := rfl
  have h3 : isPre waPat ('a' :: 't' :: 's' :: 'a' :: 'p' :: 'p' :: ':' :: x) = false := rfl
  have h4 : isPre waPat ('t' :: 's' :: 'a' :: 'p' :: 'p' :: ':' :: x) = false := rfl
  have h5 : isPre waPat ('s' :: 'a' :: 'p' :: 'p' :: ':' :: x) = false := rfl
  have h6 : isPre waPat ('a' :: 'p' :: 'p' :: ':' :: x) = false := rfl
  have h7 : isPre waPat ('p' :: 'p' :: ':' :: x) = false := rfl
  have h8 : isPre waPat ('p' :: ':' :: x) = false := rfl
  have h9 : isPre waPat (':' :: x) = false := rfl
  rw [h2, h3, h4, h5, h6, h7, h8, h9]
  simp only [Bool.or_false, Bool.false_or]
  rfl

theorem isPre_space_cons {d : Char} {ds : Str} (hd : d ≠ ' ') :
    isPre (' ' :: []) (d :: ds) = false := by
  simp only [isPre, Bool.and_eq_false_iff]
  left
  simpa using fun h => hd h.symm

theorem ne_space_of_not_ws {d : Char} (h : isSpaceChar d = false) : d ≠ ' ' := by
  intro hd
  subst hd
  simp [isSpaceChar] at h

theorem ws_false_of_digit {d : Char} (h : d.isDigit = true) :
    isSpaceChar d = false := by
  cases hw : isSpaceChar d with
  | false => rfl
  | true =>
    exfalso
    simp only [isSpaceChar, Bool.or_eq_true, decide_eq_true_eq] at hw
    obtain ((rfl | rfl) | rfl) | rfl := hw <;> simp [Char.isDigit] at h

theorem waReplace_strip_head {s : Str} {c : Char}
    (h : (waReplace (strip s)).head? = some c) : isSpaceChar c = false := by
  rw [List.head?_eq_getElem?] at h
  rcases waReplace_getElem (strip s) 0 with heq | ⟨hplus, _⟩
  · apply strip_head (l := s)
    rw [List.head?_eq_getElem?, ← heq]
    exact h
  · rw [h] at hplus
    simp only [Option.some_inj] at hplus
    subst hplus
    rfl

theorem waReplace_strip_last {s : Str} {c : Char}
    (h : (waReplace (strip s)).getLast? = some c) : isSpaceChar c = false := by
  rw [List.getLast?_eq_getElem?, waReplace_length] at h
  rcases waReplace_getElem (strip s) ((strip s).length - 1) with heq | ⟨hplus, _⟩
  · apply strip_getLast (l := s)
    rw [List.getLast?_eq_getElem?, ← heq]
    exact h
  · rw [h] at hplus
    simp only [Option.some_inj] at hplus
    subst hplus
    rfl

theorem strip_waReplace_strip (s : Str) :
    strip (waReplace (strip s)) = waReplace (strip s) :=
  strip_eq_self (fun _ h => waReplace_strip_head h)
    (fun _ h => waReplace_strip_last h)

theorem normalizeWa_eq_of_not {s : Str}
    (h : isPre waPre (waReplace (strip s)) = false) :
    normalizeWa s = waReplace (strip s) := by
  simp [normalizeWa, h]

theorem normalizeWa_eq_of_pre {s right : Str}
    (h : waReplace (strip s) = waPre ++ right) :
    normalizeWa s = strLit "whatsapp" ++ ':' ::
      (match strip right with
       | [] => ([] : Str)
       | d :: ds => if d.isDigit then '+' :: d :: ds else d :: ds) := by
  simp only [normalizeWa]
  rw [h, if_pos (isPre_append_self waPre right), splitAtColon_waPre]

theorem head_waPre_append (x : Str) : (waPre ++ x).head? = some 'w' := rfl

theorem strip_waPre_append {x : Str}
    (hlast : ∀ c, (waPre ++ x).getLast? = some c → isSpaceChar c = false) :
    strip (waPre ++ x) = waPre ++ x :=
  strip_eq_self
    (fun c hc => by
      rw [head_waPre_append] at hc
      rw [← Option.some_inj.mp hc]
      rfl)
    hlast

/-- Inputs on which `_normalize_wa` is the identity: no leading or trailing
whitespace, no occurrence of the replaced pattern, and — when the string
carries the channel marker — a tail that is already stripped and does not
start with a digit. -/
theorem normalizeWa_fix {v : Str} (hstrip : strip v = v)
    (hfree : containsSub waPat v = false)
    (hx : ∀ x, v = waPre ++ x →
      strip x = x ∧ ∀ d ds, x = d :: ds → d.isDigit = false) :
    normalizeWa v = v := by
  have hw : waReplace (strip v) = v := by rw [hstrip, waReplace_id hfree]
  by_cases hpre : isPre waPre v = true
  · have htake : v.take 9 = waPre := by
      have := isPre_take_eq hpre
      rwa [show (waPre : Str).length = 9 from rfl] at this
    have hsplit : v = waPre ++ v.drop 9 := by
      conv_lhs => rw [← List.take_append_drop 9 v]
      rw [htake]
    obtain ⟨hxs, hxd⟩ := hx (v.drop 9) hsplit
    rw [normalizeWa_eq_of_pre (hw.trans hsplit), hxs]
    cases hdrop : v.drop 9 with
    | nil =>
      conv_rhs => rw [hsplit, hdrop]
      rfl
    | cons d ds =>
      show strLit "whatsapp" ++ ':' ::
          (if d.isDigit = true then '+' :: d :: ds else d :: ds) = v
      rw [if_neg (by simp [hxd d ds hdrop])]
      conv_rhs => rw [hsplit, hdrop]
      rfl
  · rw [normalizeWa_eq_of_not (by rw [hw]; simpa using hpre), hw]

/-- C10: the push-target normalization `_normalize_wa` is idempotent — for
every string address `s`, `normalizeWa (normalizeWa s) = normalizeWa s`. -/
theorem c10_push_normalization_idempotent (s : Str) :
    normalizeWa (normalizeWa s) = normalizeWa s := by
  have hufree : containsSub waPat (waReplace (strip s)) = false :=
    waReplace_noPat (strip s)
  have hustrip := strip_waReplace_strip s
  by_cases hpre : isPre waPre (waReplace (strip s)) = true
  · have htake : (waReplace (strip s)).take 9 = waPre := by
      have := isPre_take_eq hpre
      rwa [show (waPre : Str).length = 9 from rfl] at this
    have hsplit : waReplace (strip s) = waPre ++ (waReplace (strip s)).drop 9 := by
      conv_lhs => rw [← List.take_append_drop 9 (waReplace (strip s))]
      rw [htake]
    have hrightfree : containsSub waPat ((waReplace (strip s)).drop 9) = false := by
      cases hc : containsSub waPat ((waReplace (strip s)).drop 9) with
      | false => rfl
      | true => exact absurd (containsSub_of_drop hc) (by simp [hufree])
    have hrfree : containsSub waPat (strip ((waReplace (strip s)).drop 9)) = false := by
      cases hc : containsSub waPat (strip ((waReplace (strip s)).drop 9)) with
      | false => rfl
      | true => exact absurd (containsSub_of_strip hc) (by simp [hrightfree])
    rw [normalizeWa_eq_of_pre hsplit]
    cases hr : strip ((waReplace (strip s)).drop 9) with
    | nil => decide
    | cons d ds =>
      have hdns : isSpaceChar d = false :=
        strip_head (l := (waReplace (strip s)).drop 9) (by rw [hr]; rfl)
      have hlast : ∀ c, (d :: ds).getLast? = some c → isSpaceChar c = false := by
        intro c hc
        exact strip_getLast (l := (waReplace (strip s)).drop 9)
          (by rw [hr]; exact hc)
      have hdsfree : containsSub waPat (d :: ds) = false := by rw [← hr]; exact hrfree
      by_cases hd : d.isDigit = true
      · show normalizeWa (strLit "whatsapp" ++ ':' ::
            (if d.isDigit = true then '+' :: d :: ds else d :: ds)) =
          strLit "whatsapp" ++ ':' ::
            (if d.isDigit = true then '+' :: d :: ds else d :: ds)
        rw [if_pos hd]
        show normalizeWa (waPre ++ '+' :: d :: ds) = waPre ++ '+' :: d :: ds
        apply normalizeWa_fix
        · apply strip_waPre_append
          intro c hc
          rw [List.getLast?_append_of_ne_nil waPre (by simp),
            List.getLast?_cons_cons] at hc
          exact hlast c hc
        · rw [containsSub_waPre_append]
          have h1 : isPre waPat (waPre ++ '+' :: d :: ds) = false := by
            rw [isPre_waPat_append]; rfl
          have h2 : containsSub waPat ('+' :: d :: ds) = false := by
            have e : containsSub waPat ('+' :: d :: ds) =
                (isPre waPat ('+' :: d :: ds) || containsSub waPat (d :: ds)) := rfl
            rw [e, show isPre waPat ('+' :: d :: ds) = false from rfl, hdsfree]
            rfl
          rw [h1, h2]
          rfl
        · intro x hx
          have hxeq : ('+' :: d :: ds : Str) = x := List.append_cancel_left hx
          subst hxeq
          refine ⟨?_, ?_⟩
          · apply strip_eq_self
            · intro c hc
              simp only [List.head?_cons, Option.some_inj] at hc
              rw [← hc]
              rfl
            · intro c hc
              rw [List.getLast?_cons_cons] at hc
              exact hlast c hc
          · intro d' ds' hde
            have : d' = '+' := by
              have := congrArg List.head? hde
              simpa using this.symm
            rw [this]
            rfl
      · show normalizeWa (strLit "whatsapp" ++ ':' ::
            (if d.isDigit = true then '+' :: d :: ds else d :: ds)) =
          strLit "whatsapp" ++ ':' ::
            (if d.isDigit = true then '+' :: d :: ds else d :: ds)
        rw [if_neg hd]
        show normalizeWa (waPre ++ d :: ds) = waPre ++ d :: ds
        apply normalizeWa_fix
        · apply strip_waPre_append
          intro c hc
          rw [List.getLast?_append_of_ne_nil waPre (by simp)] at hc
          exact hlast c hc
        · rw [containsSub_waPre_append, isPre_waPat_append,
            isPre_space_cons (ne_space_of_not_ws hdns), hdsfree]
          rfl
        · intro x hx
          have hxeq : (d :: ds : Str) = x := List.append_cancel_left hx
          subst hxeq
          refine ⟨?_, ?_⟩
          · apply strip_eq_self
            · intro c hc
              simp only [List.head?_cons, Option.some_inj] at hc
              rw [← hc]
              exact hdns
            · exact hlast
          · intro d' ds' hde
            have hdd : d' = d := by
              have := congrArg List.head? hde
              simpa using this.symm
            rw [hdd]
            simpa using hd
  · rw [normalizeWa_eq_of_not (s := s) (by simpa using hpre)]
    rw [normalizeWa_eq_of_not (s := waReplace (strip s))
      (by rw [hustrip, waReplace_id hufree]; simpa using hpre)]
    rw [hustrip, waReplace_id hufree]

/-- C9: `_normalize_wa` maps `"whatsapp: 15551234567"` to
`"whatsapp:+15551234567"`; more generally an address carrying the channel
marker `"whatsapp:"` followed by a stripped tail that begins with a digit
(and contains no further `"whatsapp: "` occurrence) gets a `'+'` inserted,
and a stripped address without the marker and without the replaced pattern
is left as-is. -/
theorem c9_push_target_normalization :
    (normalizeWa (strLit "whatsapp: 15551234567") = strLit "whatsapp:+15551234567") ∧
    (∀ r : Str, containsSub waPat (waPre ++ r) = false → strip r = r →
      ∀ d ds, r = d :: ds → d.isDigit = true →
      normalizeWa (waPre ++ r) = waPre ++ '+' :: r) ∧
    (∀ s : Str, strip s = s → containsSub waPat s = false →
      isPre waPre s = false → normalizeWa s = s) := by
  refine ⟨by decide, ?_, ?_⟩
  · intro r hfree hstrip d ds hr hd
    subst hr
    have hparts := strip_parts hstrip
    have h1 : stripL (waPre ++ d :: ds) = waPre ++ d :: ds :=
      stripL_eq_self fun c hc => by
        rw [head_waPre_append] at hc
        rw [← Option.some_inj.mp hc]
        rfl
    have hstripAll : strip (waPre ++ d :: ds) = waPre ++ d :: ds := by
      rw [strip, h1]
      exact stripR_append hparts.2 (by simp)
    have hwa : waReplace (strip (waPre ++ d :: ds)) = waPre ++ d :: ds := by
      rw [hstripAll]
      exact waReplace_id hfree
    rw [normalizeWa_eq_of_pre hwa, hstrip]
    show strLit "whatsapp" ++ ':' ::
        (if d.isDigit = true then '+' :: d :: ds else d :: ds) = _
    rw [if_pos hd]
    rfl
  · intro s hstrip hfree hpre
    rw [normalizeWa_eq_of_not (by rw [hstrip, waReplace_id hfree]; exact hpre)]
    rw [hstrip, waReplace_id hfree]

/-- Witness for C9: the general repair rule applied at the concrete tail
`"15551234567"`. -/
theorem c9_push_target_normalization_witness :
    normalizeWa (waPre ++ strLit "15551234567") =
      waPre ++ '+' :: strLit "15551234567" :=
  c9_push_target_normalization.2.1 (strLit "15551234567") (by decide) (by decide)
    '1' (strLit "5551234567") (by decide) (by decide)

/-- C8: for every token request the effective budget of `_clamp_tokens` lies
in `[1, serverMax]`, and equals `serverMax` whenever the request is absent,
non-numeric, or greater than `serverMax` (stated for a server ceiling of at
least 1, the shipped configuration). -/
theorem c8_token_budget (serverMax : Int) (hmax : 1 ≤ serverMax) (r : TokenReq) :
    (1 ≤ clampTokens serverMax r ∧ clampTokens serverMax r ≤ serverMax) ∧
    ((r = TokenReq.absent ∨ r = TokenReq.invalid ∨
        ∃ n, r = TokenReq.num n ∧ serverMax < n) →
      clampTokens serverMax r = serverMax) := by
  constructor
  · cases r with
    | absent => exact ⟨hmax, le_refl _⟩
    | num n =>
      simp only [clampTokens]
      split_ifs <;> omega
    | invalid =>
      simp only [clampTokens]
      split_ifs <;> omega
  · rintro (rfl | rfl | ⟨n, rfl, hn⟩)
    · rfl
    · simp only [clampTokens]
      split_ifs <;> omega
    · simp only [clampTokens]
      split_ifs <;> omega

/-- Witness for C8: an over-budget request of 100 against the default
ceiling 64 is clamped to 64. -/
theorem c8_token_budget_witness : clampTokens 64 (TokenReq.num 100) = 64 :=
  (c8_token_budget 64 (by norm_num) (TokenReq.num 100)).2
    (Or.inr (Or.inr ⟨100, rfl, by norm_num⟩))

/-- C1 counterexample: a client hint of 500 ms is raised to the 1000 ms
floor — the final value differs from the raw client value — yet
`_resolve_timeout_ms` tags it `"client"`, not `"clamped"` as the claim
demands. -/
theorem c1_timeout_source_counterexample :
    resolveTimeoutMs 30000 60000 ⟨some 500, none⟩ = (1000, "client") ∧
    requestedOf ⟨some 500, none⟩ = some 500 ∧
    (1000 : Int) ≠ 500 ∧ ("client" : String) ≠ "clamped" := by
  decide

/-- C1 amended: the resolved timeout lies in `[1000, ceiling]` (for a
ceiling of at least 1000 ms); the source is `"default"` iff no client value
was supplied; with a client value `r` it is `"clamped"` iff the final value
was reduced below `r`, and `"client"` otherwise — including when the value
was raised by the 1000 ms floor. -/
theorem c1_timeout_resolver (defaultMs ceilingMs : Int) (hceil : 1000 ≤ ceilingMs)
    (h : TimeoutHints) :
    1000 ≤ (resolveTimeoutMs defaultMs ceilingMs h).1 ∧
    (resolveTimeoutMs defaultMs ceilingMs h).1 ≤ ceilingMs ∧
    ((resolveTimeoutMs defaultMs ceilingMs h).2 = "default" ↔ requestedOf h = none) ∧
    (∀ r, requestedOf h = some r →
      (((resolveTimeoutMs defaultMs ceilingMs h).2 = "clamped" ↔
          (resolveTimeoutMs defaultMs ceilingMs h).1 < r) ∧
        ((resolveTimeoutMs defaultMs ceilingMs h).2 = "client" ↔
          r ≤ (resolveTimeoutMs defaultMs ceilingMs h).1))) := by
  cases hreq : requestedOf h with
  | none =>
    simp only [resolveTimeoutMs, hreq]
    refine ⟨le_max_left _ _, ?_, by simp, fun r hr => by simp at hr⟩
    have h1 : min defaultMs ceilingMs ≤ ceilingMs := min_le_right _ _
    exact max_le hceil h1
  | some r0 =>
    have e : resolveTimeoutMs defaultMs ceilingMs h =
        (max 1000 (min r0 ceilingMs),
          if max 1000 (min r0 ceilingMs) < r0 then "clamped" else "client") := by
      simp only [resolveTimeoutMs, hreq]
      split_ifs <;> rfl
    rw [e]
    have h1 : min r0 ceilingMs ≤ ceilingMs := min_le_right _ _
    refine ⟨le_max_left _ _, max_le hceil h1, ?_, fun r hr => ?_⟩
    · constructor
      · intro hcl
        exfalso
        by_cases hlt : max 1000 (min r0 ceilingMs) < r0
        · rw [if_pos hlt] at hcl
          exact absurd (show ("clamped" : String) = "default" from hcl) (by decide)
        · rw [if_neg hlt] at hcl
          exact absurd (show ("client" : String) = "default" from hcl) (by decide)
      · intro hc
        exact absurd hc (by simp)
    · have hr0 : r = r0 := (Option.some_inj.mp hr).symm
      rw [hr0]
      by_cases hlt : max 1000 (min r0 ceilingMs) < r0
      · rw [if_pos hlt]
        exact ⟨⟨fun _ => hlt, fun _ => rfl⟩,
          ⟨fun hc => absurd (show ("clamped" : String) = "client" from hc) (by decide),
            fun hle => absurd hlt (by omega)⟩⟩
      · rw [if_neg hlt]
        exact ⟨⟨fun hc => absurd (show ("client" : String) = "clamped" from hc) (by decide),
            fun hl => absurd hl hlt⟩,
          ⟨fun _ => by omega, fun _ => rfl⟩⟩

/-- Witness for C1: a 70 s hint against a 60 s ceiling resolves with source
`"clamped"`. -/
theorem c1_timeout_resolver_witness :
    (resolveTimeoutMs 30000 60000 ⟨some 70000, none⟩).2 = "clamped" :=
  ((c1_timeout_resolver 30000 60000 (by norm_num) ⟨some 70000, none⟩).2.2.2
    70000 rfl).1.mpr (by decide)

/-- C2 counterexample: on the payload with choices `[ ⟨text := "t", no
message⟩ ]`, `_extract_text` returns `""`, not `"t"` — it never consults a
choices element's direct `text` field. -/
theorem c2_extract_text_counterexample :
    extractText ⟨none, none, none, some [⟨some "t", none⟩]⟩ = "" ∧
    ("" : String) ≠ "t" := by
  decide

/-- C2 amended: `_extract_text` returns the stripped first truthy value
among top-level `reply`, `response`, `text` (in that order) provided
stripping leaves it non-empty; otherwise, when a first choices element
exists, the stripped `message.content` of that element (its direct `text`
field is never consulted); otherwise the empty string. -/
theorem c2_response_normalizer (d : Payload) :
    (pyStrip (topVal d) ≠ "" → extractText d = pyStrip (topVal d)) ∧
    (∀ s, d.reply = some s → pyStrip s ≠ "" → extractText d = pyStrip s) ∧
    ((d.reply = none ∨ d.reply = some "") →
      ∀ s, d.response = some s → pyStrip s ≠ "" → extractText d = pyStrip s) ∧
    ((d.reply = none ∨ d.reply = some "") →
      (d.response = none ∨ d.response = some "") →
      ∀ s, d.text = some s → pyStrip s ≠ "" → extractText d = pyStrip s) ∧
    (pyStrip (topVal d) = "" → ∀ c rest, d.choices = some (c :: rest) →
      extractText d = pyStrip (orStr c.messageContent "")) ∧
    (pyStrip (topVal d) = "" → (d.choices = none ∨ d.choices = some []) →
      extractText d = "") := by
  have hne : ∀ s : String, pyStrip s ≠ "" → s ≠ "" := by
    intro s hs he
    subst he
    exact hs rfl
  refine ⟨?_, ?_, ?_, ?_, ?_, ?_⟩
  · intro h
    simp [extractText, h]
  · intro s hs hne2
    have htv : topVal d = s := by
      simp [topVal, orStr, hs, hne s hne2]
    simp [extractText, htv, hne2]
  · intro hrep s hs hne2
    have htv : topVal d = s := by
      rcases hrep with hr | hr <;>
        simp [topVal, orStr, hr, hs, hne s hne2]
    simp [extractText, htv, hne2]
  · intro hrep hresp s hs hne2
    have htv : topVal d = s := by
      rcases hrep with hr | hr <;> rcases hresp with hp | hp <;>
        simp [topVal, orStr, hr, hp, hs, hne s hne2]
    simp [extractText, htv, hne2]
  · intro h c rest hc
    simp [extractText, h, hc]
  · intro h hch
    rcases hch with hc | hc <;> simp [extractText, h, hc]

/-- Witness for C2 amended: a payload with a whitespace-only reply and a
choices element falls through to `message.content`. -/
theorem c2_response_normalizer_witness :
    extractText ⟨some " ", none, none, some [⟨some "t", some "hi"⟩]⟩ = "hi" :=
  ((c2_response_normalizer ⟨some " ", none, none, some [⟨some "t", some "hi"⟩]⟩).2.2.2.2.1
    (by decide) ⟨some "t", some "hi"⟩ [] rfl).trans (by decide)

/-! ## Infrastructure: lowercasing and substring transfer -/

theorem lookChar_mem {t : List (Char × Char)} {c d : Char}
    (h : lookChar t c = some d) : (c, d) ∈ t := by
  induction t with
  | nil => simp [lookChar] at h
  | cons kv rest ih =>
    obtain ⟨k, v⟩ := kv
    simp only [lookChar] at h
    by_cases hc : c = k
    · rw [if_pos hc] at h
      simp only [Option.some_inj] at h
      subst hc
      subst h
      exact List.mem_cons_self _ _
    · rw [if_neg hc] at h
      exact List.mem_cons_of_mem _ (ih h)

/-- For a character `p` that is neither an uppercase nor a lowercase ASCII
letter, `lowChar c = p` holds exactly when `c = p`. -/
theorem lowChar_eq_iff {p : Char} (hp : p ∉ lowTable.map Prod.fst ∧
    p ∉ lowTable.map Prod.snd) (c : Char) : (lowChar c = p) ↔ (c = p) := by
  unfold lowChar
  cases hl : lookChar lowTable c with
  | none => exact Iff.rfl
  | some d =>
    have hmem : (c, d) ∈ lowTable := lookChar_mem hl
    have hck := List.mem_map_of_mem Prod.fst hmem
    have hdv := List.mem_map_of_mem Prod.snd hmem
    constructor
    · intro h
      exact absurd (h ▸ hdv) hp.2
    · intro h
      exact absurd (h ▸ hck) hp.1

theorem lowChar_eq_space (c : Char) : (lowChar c = ' ') ↔ (c = ' ') :=
  lowChar_eq_iff (by decide) c

theorem lowChar_eq_five (c : Char) : (lowChar c = '5') ↔ (c = '5') :=
  lowChar_eq_iff (by decide) c

theorem lowChar_eq_zero (c : Char) : (lowChar c = '0') ↔ (c = '0') :=
  lowChar_eq_iff (by decide) c

theorem lowChar_eq_two (c : Char) : (lowChar c = '2') ↔ (c = '2') :=
  lowChar_eq_iff (by decide) c

theorem isPre_lower {p : Str} (hp : ∀ a ∈ p, ∀ c, (lowChar c = a) ↔ (c = a)) :
    ∀ l, isPre p (lowerStr l) = isPre p l := by
  induction p with
  | nil => intro l; rfl
  | cons a as ih =>
    intro l
    cases l with
    | nil => rfl
    | cons c cs =>
      show (decide (a = lowChar c) && isPre as (lowerStr cs)) =
        (decide (a = c) && isPre as cs)
      have h1 : (a = lowChar c) ↔ (a = c) := by
        constructor
        · intro hl
          exact ((hp a (by simp) c).mp hl.symm).symm
        · intro hl
          exact ((hp a (by simp) c).mpr hl.symm).symm
      rw [decide_eq_decide.mpr h1, ih (fun b hb => hp b (by simp [hb])) cs]

theorem containsSub_lower {p : Str} (hp : ∀ a ∈ p, ∀ c, (lowChar c = a) ↔ (c = a)) :
    ∀ l, containsSub p (lowerStr l) = containsSub p l := by
  intro l
  induction l with
  | nil => rfl
  | cons c cs ih =>
    show (isPre p (lowerStr (c :: cs)) || containsSub p (lowerStr cs)) =
      (isPre p (c :: cs) || containsSub p cs)
    rw [isPre_lower hp (c :: cs), ih]

/-- C5: a failure is classified retryable by `_is_retryable` iff its error
text contains (case-insensitively) the 5xx-style marker `" 50"`, the token
`"502"`, the phrase `"bad gateway"`, or the word `"timeout"`; every other
failure is fatal. The code matches `" 50"` and `"502"` on the raw text, but
as those patterns hold no letters this is the same as matching them on the
lowercased text. -/
theorem c5_retryable_classification (err : String) :
    isRetryable err = true ↔
      (containsSub (strLit " 50") (lowerStr err.data) = true ∨
       containsSub (strLit "502") (lowerStr err.data) = true ∨
       containsSub (strLit "bad gateway") (lowerStr err.data) = true ∨
       containsSub (strLit "timeout") (lowerStr err.data) = true) := by
  have hp50 : ∀ a ∈ strLit " 50", ∀ c, (lowChar c = a) ↔ (c = a) := by
    intro a ha c
    have hmem : a = ' ' ∨ a = '5' ∨ a = '0' := by simpa [strLit] using ha
    rcases hmem with rfl | rfl | rfl
    · exact lowChar_eq_space c
    · exact lowChar_eq_five c
    · exact lowChar_eq_zero c
  have hp502 : ∀ a ∈ strLit "502", ∀ c, (lowChar c = a) ↔ (c = a) := by
    intro a ha c
    have hmem : a = '5' ∨ a = '0' ∨ a = '2' := by simpa [strLit] using ha
    rcases hmem with rfl | rfl | rfl
    · exact lowChar_eq_five c
    · exact lowChar_eq_zero c
    · exact lowChar_eq_two c
  have e1 : containsSub (strLit " 50") (lowerStr err.data) =
      containsSub (strLit " 50") err.data := containsSub_lower hp50 err.data
  have e2 : containsSub (strLit "502") (lowerStr err.data) =
      containsSub (strLit "502") err.data := containsSub_lower hp502 err.data
  rw [e1, e2]
  simp only [isRetryable, Bool.or_eq_true]
  tauto


/-! ## Infrastructure: the retry loop -/

theorem retryGo_calls_le (d : ℚ) (atts : List Attempt) :
    (retryGo d atts).calls ≤ atts.length := by
  induction atts generalizing d with
  | nil => simp [retryGo]
  | cons a rest ih =>
    simp only [retryGo]
    by_cases h1 : a.ok = true
    · rw [if_pos h1]
      simp
    · rw [if_neg h1]
      by_cases h2 : (isRetryable a.meta.errorText && !rest.isEmpty) = true
      · rw [if_pos h2]
        show (retryGo (d * (8 / 5)) rest).calls + 1 ≤ (a :: rest).length
        have := ih (d * (8 / 5))
        simp only [List.length_cons]
        omega
      · rw [if_neg h2]
        simp

theorem retryGo_all_retry : ∀ (pre : List Attempt) (d : ℚ) (rest : List Attempt),
    (∀ b ∈ pre, b.ok = false ∧ isRetryable b.meta.errorText = true) → rest ≠ [] →
    retryGo d (pre ++ rest) =
      ⟨(retryGo (d * (8 / 5) ^ pre.length) rest).ok,
       (retryGo (d * (8 / 5) ^ pre.length) rest).text,
       (retryGo (d * (8 / 5) ^ pre.length) rest).meta,
       (retryGo (d * (8 / 5) ^ pre.length) rest).calls + pre.length,
       ((List.range pre.length).map fun k => d * (8 / 5) ^ k) ++
         (retryGo (d * (8 / 5) ^ pre.length) rest).sleeps⟩ := by
  intro pre
  induction pre with
  | nil =>
    intro d rest hpre hrest
    simp only [List.nil_append, List.length_nil, pow_zero, mul_one, List.range_zero,
      List.map_nil, Nat.add_zero]
  | cons b pre2 ih =>
    intro d rest hpre hrest
    have hb := hpre b (List.mem_cons_self _ _)
    simp only [List.cons_append, retryGo, List.append_eq]
    rw [if_neg (by simp [hb.1]),
      if_pos (by simp [hb.2, List.isEmpty_iff, hrest]),
      ih (d * (8 / 5)) rest (fun x hx => hpre x (List.mem_cons_of_mem _ hx)) hrest]
    have hdelay : d * (8 / 5) * (8 / 5) ^ pre2.length =
        d * (8 / 5) ^ (pre2.length + 1) := by
      rw [pow_succ]
      ring
    rw [hdelay]
    have hmap : d :: (List.range pre2.length).map (fun k => d * (8 / 5) * (8 / 5) ^ k) =
        (List.range (pre2.length + 1)).map fun k => d * (8 / 5) ^ k := by
      rw [List.range_succ_eq_map, List.map_cons, List.map_map]
      congr 1
      · simp
      · apply List.map_congr_left
        intro k hk
        show d * (8 / 5) * (8 / 5) ^ k = d * (8 / 5) ^ (k + 1)
        rw [pow_succ]
        ring
    simp only [RetryResult.mk.injEq, List.length_cons]
    refine ⟨trivial, trivial, trivial, by omega, ?_⟩
    rw [← hmap, List.cons_append]

theorem answerRetryLoop_first_success (pre : List Attempt) (a : Attempt)
    (post : List Attempt)
    (hpre : ∀ b ∈ pre, b.ok = false ∧ isRetryable b.meta.errorText = true)
    (ha : a.ok = true) :
    answerRetryLoop (pre ++ a :: post) =
      ⟨true, a.text, a.meta, pre.length + 1, sleepsUpTo pre.length⟩ := by
  show retryGo (1 / 2 : ℚ) (pre ++ a :: post) = _
  rw [retryGo_all_retry pre (1 / 2 : ℚ) (a :: post) hpre (by simp)]
  have hstep : retryGo ((1 / 2 : ℚ) * (8 / 5) ^ pre.length) (a :: post) =
      ⟨true, a.text, a.meta, 1, []⟩ := by
    simp only [retryGo]
    rw [if_pos ha]
  rw [hstep]
  simp [sleepsUpTo, Nat.add_comm]

theorem answerRetryLoop_first_fatal (pre : List Attempt) (a : Attempt)
    (post : List Attempt)
    (hpre : ∀ b ∈ pre, b.ok = false ∧ isRetryable b.meta.errorText = true)
    (ha : a.ok = false) (hfat : isRetryable a.meta.errorText = false) :
    answerRetryLoop (pre ++ a :: post) =
      ⟨false, "", a.meta, pre.length + 1, sleepsUpTo pre.length⟩ := by
  show retryGo (1 / 2 : ℚ) (pre ++ a :: post) = _
  rw [retryGo_all_retry pre (1 / 2 : ℚ) (a :: post) hpre (by simp)]
  have hstep : retryGo ((1 / 2 : ℚ) * (8 / 5) ^ pre.length) (a :: post) =
      ⟨false, "", a.meta, 1, []⟩ := by
    simp only [retryGo]
    rw [if_neg (by simp [ha]), if_neg (by simp [hfat])]
  rw [hstep]
  simp [sleepsUpTo, Nat.add_comm]

theorem answerRetryLoop_exhausted (pre : List Attempt) (a : Attempt)
    (hpre : ∀ b ∈ pre, b.ok = false ∧ isRetryable b.meta.errorText = true)
    (ha : a.ok = false) :
    answerRetryLoop (pre ++ (a :: [])) =
      ⟨false, "", a.meta, pre.length + 1, sleepsUpTo pre.length⟩ := by
  show retryGo (1 / 2 : ℚ) (pre ++ (a :: [])) = _
  rw [retryGo_all_retry pre (1 / 2 : ℚ) (a :: []) hpre (by simp)]
  have hstep : retryGo ((1 / 2 : ℚ) * (8 / 5) ^ pre.length) (a :: []) =
      ⟨false, "", a.meta, 1, []⟩ := by
    simp only [retryGo]
    rw [if_neg (by simp [ha]), if_neg (by simp)]
  rw [hstep]
  simp [sleepsUpTo, Nat.add_comm]

/-- C4: the retry orchestrator of `_answer_with_retry` makes at most as many
calls as it has allowed attempts (3 in the pipeline), stops at the first
success returning it, stops at the first non-retryable failure returning
that failure, returns the last failure when attempts are exhausted, and
sleeps between retried attempts for `0.5 * 1.6 ^ k` seconds; on the outcome
sequence `[retryable, retryable, success]` exactly 3 calls occur with
result success and sleeps `[0.5 s, 0.8 s]`, and on a first fatal outcome
exactly 1 call occurs with a failure result. -/
theorem c4_retry_orchestrator :
    (∀ atts : List Attempt, (answerRetryLoop atts).calls ≤ atts.length) ∧
    (∀ (q : String) (mx t : Int) (f : Except Unit FetchResp) (att : Nat → Attempt),
      (answerWithRetry q mx t 3 f att).calls ≤ 3) ∧
    (∀ pre a post, (∀ b ∈ pre, b.ok = false ∧ isRetryable b.meta.errorText = true) →
      a.ok = true →
      answerRetryLoop (pre ++ a :: post) =
        ⟨true, a.text, a.meta, pre.length + 1, sleepsUpTo pre.length⟩) ∧
    (∀ pre a post, (∀ b ∈ pre, b.ok = false ∧ isRetryable b.meta.errorText = true) →
      a.ok = false → isRetryable a.meta.errorText = false →
      answerRetryLoop (pre ++ a :: post) =
        ⟨false, "", a.meta, pre.length + 1, sleepsUpTo pre.length⟩) ∧
    (∀ pre a, (∀ b ∈ pre, b.ok = false ∧ isRetryable b.meta.errorText = true) →
      a.ok = false →
      answerRetryLoop (pre ++ (a :: [])) =
        ⟨false, "", a.meta, pre.length + 1, sleepsUpTo pre.length⟩) ∧
    (answerRetryLoop (att502 :: att502 :: attOk :: []) =
      ⟨true, "pong", ⟨ "200", ""⟩, 3, (1 / 2 : ℚ) :: (4 / 5 : ℚ) :: []⟩) ∧
    (∀ a b, answerRetryLoop (att400 :: a :: b :: []) =
      ⟨false, "", ⟨ "400", "HTTP 400"⟩, 1, []⟩) := by
  refine ⟨?_, ?_, answerRetryLoop_first_success, answerRetryLoop_first_fatal,
    answerRetryLoop_exhausted, ?_, ?_⟩
  · intro atts
    exact retryGo_calls_le _ atts
  · intro q mx t f att
    have h := retryGo_calls_le (1 / 2 : ℚ) ((List.range 3).map att)
    simpa [answerWithRetry, answerRetryLoop] using h
  · have h := answerRetryLoop_first_success (att502 :: att502 :: []) attOk []
      (by decide) rfl
    rw [show ((att502 :: att502 :: []) ++ attOk :: []) =
      att502 :: att502 :: attOk :: [] from rfl] at h
    rw [h]
    have hlen : ((att502 :: att502 :: []) : List Attempt).length = 2 := rfl
    rw [hlen]
    have hs : sleepsUpTo 2 = (1 / 2 : ℚ) :: (4 / 5 : ℚ) :: [] := by
      simp only [sleepsUpTo, List.range_succ, List.range_zero, List.nil_append,
        List.map_append, List.map_cons, List.map_nil, List.cons_append,
        List.singleton_append]
      norm_num
    rw [hs]
    rfl
  · intro a b
    show retryGo (1 / 2 : ℚ) (att400 :: a :: b :: []) = _
    simp only [retryGo]
    have hA : isRetryable att400.meta.errorText = false := by decide
    rw [if_neg (by decide), if_neg (by simp [hA])]
    rfl

/-- Witness for C4: two retryable 502 failures then a success — 3 calls,
success, sleeps 0.5 s and 0.8 s. -/
theorem c4_retry_orchestrator_witness :
    answerRetryLoop ((att502 :: att502 :: []) ++ attOk :: []) =
      ⟨true, attOk.text, attOk.meta, (att502 :: att502 :: []).length + 1,
        sleepsUpTo (att502 :: att502 :: []).length⟩ :=
  c4_retry_orchestrator.2.2.1 (att502 :: att502 :: []) attOk [] (by decide) (by decide)


/-! ## Infrastructure: failure propagation through the loop -/

theorem retryGo_all_fail (d : ℚ) (atts : List Attempt)
    (h : ∀ a ∈ atts, a.ok = false) : (retryGo d atts).ok = false := by
  induction atts generalizing d with
  | nil => rfl
  | cons a rest ih =>
    simp only [retryGo]
    rw [if_neg (by simp [h a (List.mem_cons_self _ _)])]
    by_cases h2 : (isRetryable a.meta.errorText && !rest.isEmpty) = true
    · rw [if_pos h2]
      show (retryGo (d * (8 / 5)) rest).ok = false
      exact ih (d * (8 / 5)) (fun a ha => h a (List.mem_cons_of_mem _ ha))
    · rw [if_neg h2]

theorem retryGo_ok_text (d : ℚ) (atts : List Attempt)
    (h : (retryGo d atts).ok = true) :
    ∃ a ∈ atts, a.ok = true ∧ (retryGo d atts).text = a.text := by
  induction atts generalizing d with
  | nil => simp [retryGo] at h
  | cons a rest ih =>
    by_cases h1 : a.ok = true
    · refine ⟨a, List.mem_cons_self _ _, h1, ?_⟩
      simp [retryGo, h1]
    · by_cases h2 : (isRetryable a.meta.errorText && !rest.isEmpty) = true
      · have hred : retryGo d (a :: rest) =
            ⟨(retryGo (d * (8 / 5)) rest).ok, (retryGo (d * (8 / 5)) rest).text,
             (retryGo (d * (8 / 5)) rest).meta, (retryGo (d * (8 / 5)) rest).calls + 1,
             d :: (retryGo (d * (8 / 5)) rest).sleeps⟩ := by
          simp only [retryGo]
          rw [if_neg h1, if_pos h2]
        rw [hred] at h ⊢
        obtain ⟨b, hb, hbok, hbtext⟩ := ih (d * (8 / 5)) h
        exact ⟨b, List.mem_cons_of_mem _ hb, hbok, hbtext⟩
      · have hred : retryGo d (a :: rest) = ⟨false, "", a.meta, 1, []⟩ := by
          simp only [retryGo]
          rw [if_neg h1, if_neg h2]
        rw [hred] at h
        simp at h

/-- Exception-free transport outcomes make the exception-aware retry loop
agree with the `Attempt`-oracle loop. -/
theorem retryGoE_eq_of_callOk : ∀ (outs : List CallOutcome) (d : ℚ),
    (∀ o ∈ outs, callOk o = true) →
    retryGoE d outs = Except.ok (retryGo d (outs.map attemptOf)) := by
  intro outs
  induction outs with
  | nil => intro d h; rfl
  | cons o rest ih =>
    intro d h
    have ho := h o (List.mem_cons_self _ _)
    obtain ⟨ok1, text, meta, htrip⟩ :
        ∃ ok1 text meta, callChatPrompt o = Except.ok (ok1, text, meta) := by
      cases hc : callChatPrompt o with
      | ok t => exact ⟨t.1, t.2.1, t.2.2, rfl⟩
      | error e =>
        exfalso
        unfold callOk at ho
        rw [hc] at ho
        simp at ho
    have hatt : attemptOf o = ⟨ok1, text, meta⟩ := by
      unfold attemptOf
      rw [htrip]
    have hie : (rest.map attemptOf).isEmpty = rest.isEmpty := by
      cases rest <;> rfl
    simp only [retryGoE, htrip, List.map_cons, hatt, retryGo]
    by_cases h1 : ok1 = true
    · rw [if_pos h1, if_pos h1]
    · rw [if_neg h1, if_neg h1, hie]
      by_cases h2 : (isRetryable meta.errorText && !rest.isEmpty) = true
      · rw [if_pos h2, if_pos h2,
          ih (d * (8 / 5)) (fun x hx => h x (List.mem_cons_of_mem _ hx))]
      · rw [if_neg h2, if_neg h2]

/-- Under exception-free transport outcomes the full `api_answer` pipeline
returns a value: the exception-aware handler agrees with the
`Attempt`-oracle one. -/
theorem apiAnswerE_eq_of_callOk (td md : Int) (q : Option String)
    (tH mH : Option Int) (f : Except Unit FetchResp) (calls : Nat → CallOutcome)
    (h : ∀ i, i < 3 → callOk (calls i) = true) :
    apiAnswerE td md q tH mH f calls =
      Except.ok (apiAnswer td md q tH mH f fun i => attemptOf (calls i)) := by
  have hall : ∀ o ∈ (List.range 3).map calls, callOk o = true := by
    intro o hoo
    obtain ⟨i, hi, hfe⟩ := List.mem_map.mp hoo
    rw [← hfe]
    exact h i (List.mem_range.mp hi)
  have hbridge := retryGoE_eq_of_callOk ((List.range 3).map calls) (1 / 2 : ℚ) hall
  have hredE : apiAnswerE td md q tH mH f calls =
      (match retryGoE (1 / 2 : ℚ) ((List.range 3).map calls) with
       | .error e => Except.error e
       | .ok r =>
         Except.ok ⟨if r.ok then r.text else "LLM busy; try again.", r.ok⟩) := rfl
  rw [hredE, hbridge]
  have hmm : ((List.range 3).map calls).map attemptOf =
      (List.range 3).map fun i => attemptOf (calls i) := by
    rw [List.map_map]
    rfl
  rw [hmm]
  rfl

/-- When additionally every (exception-free) attempt fails, the handler
substitutes the busy sentence with the pipeline flag false — the behaviour
the specification intends for every input. -/
theorem apiAnswerE_busy_of_all_fail (td md : Int) (q : Option String)
    (tH mH : Option Int) (f : Except Unit FetchResp) (calls : Nat → CallOutcome)
    (h : ∀ i, i < 3 → callOk (calls i) = true)
    (hfail : ∀ i, i < 3 → (attemptOf (calls i)).ok = false) :
    apiAnswerE td md q tH mH f calls =
      Except.ok ⟨ "LLM busy; try again.", false⟩ := by
  rw [apiAnswerE_eq_of_callOk td md q tH mH f calls h]
  have hfail2 : ∀ a ∈ (List.range 3).map fun i => attemptOf (calls i),
      a.ok = false := by
    intro a ha
    obtain ⟨i, hi, hfe⟩ := List.mem_map.mp ha
    rw [← hfe]
    exact hfail i (List.mem_range.mp hi)
  have hone : (answerRetryLoop
      ((List.range 3).map fun i => attemptOf (calls i))).ok = false :=
    retryGo_all_fail _ _ hfail2
  have hred : apiAnswer td md q tH mH f (fun i => attemptOf (calls i)) =
      ⟨if (answerRetryLoop ((List.range 3).map fun i => attemptOf (calls i))).ok
            = true
          then (answerRetryLoop
            ((List.range 3).map fun i => attemptOf (calls i))).text
          else "LLM busy; try again.",
        (answerRetryLoop ((List.range 3).map fun i => attemptOf (calls i))).ok⟩ :=
    rfl
  rw [hred, hone]
  rfl

/-- C3: at the failing input — the generation backend answers HTTP 200 with
an `application/json` content type and a body that is malformed (resp. is
not a JSON mapping) — the pipeline raises the uncaught
`json.JSONDecodeError` (resp. `AttributeError`) to its caller instead of
returning a value, because `_call_chat_prompt` catches only
`httpx.HTTPError` and neither `_answer_with_retry` nor `api_answer` has a
handler; with the same request but a well-formed failing body the pipeline
degrades to the busy sentence as the claim demands. -/
theorem c3_uncaught_exception :
    apiAnswerE 9000 48 (some "hi") none none (Except.error ())
      (fun _ => CallOutcome.response 200 true RespBody.malformed) =
      Except.error PyExc.jsonDecodeError ∧
    apiAnswerE 9000 48 (some "hi") none none (Except.error ())
      (fun _ => CallOutcome.response 200 true RespBody.nonMapping) =
      Except.error PyExc.attributeError ∧
    apiAnswerE 9000 48 (some "hi") none none (Except.error ())
      (fun _ => CallOutcome.response 400 true
        (RespBody.mapping ⟨none, none, none, none⟩)) =
      Except.ok ⟨ "LLM busy; try again.", false⟩ :=
  ⟨rfl, rfl, rfl⟩

/-- C6: the context retriever returns the empty context `("", [])` on every
failed retrieval outcome (it never raises past its boundary); on success
every returned source label is non-empty and at most 80 characters, and for
a list-shaped `sources` field the labels are exactly the non-empty entries
truncated to 80 characters, in order. -/
theorem c6_context_retriever (q : String) (t : Int) :
    (∀ e : Unit, fetchLocalContext q t (Except.error e) = ( "", [])) ∧
    (∀ j : FetchResp, ∀ s ∈ (fetchLocalContext q t (Except.ok j)).2,
      s.length ≤ 80 ∧ s ≠ "") ∧
    (∀ (j : FetchResp) (l : List String), j.sources = SourcesVal.listOf l →
      l ≠ [] →
      (fetchLocalContext q t (Except.ok j)).2 =
        (l.filter fun s => s ≠ "").map fun s => String.mk (s.data.take 80)) := by
  refine ⟨fun e => rfl, ?_, ?_⟩
  · intro j s hs
    simp only [fetchLocalContext] at hs
    obtain ⟨s0, hs0, hfe⟩ := List.mem_map.mp hs
    constructor
    · rw [← hfe]
      show (s0.data.take 80).length ≤ 80
      simp [List.length_take]
    · have hs0ne : s0 ≠ "" := by
        have := List.mem_filter.mp hs0
        simpa using this.2
      rw [← hfe]
      intro he
      have hdata : s0.data.take 80 = [] := by
        have := congrArg String.data he
        simpa using this
      have : s0.data = [] := by
        cases hd : s0.data with
        | nil => rfl
        | cons c cs =>
          rw [hd] at hdata
          simp [List.take_succ_cons] at hdata
      exact hs0ne (by cases s0; simp_all)
  · intro j l hsrc hlne
    simp only [fetchLocalContext, hsrc]
    have ht : svTruthy (SourcesVal.listOf l) = true := by
      simp [svTruthy, List.isEmpty_iff, hlne]
    rw [if_pos ht]
    rfl

/-- C7 counterexample: on the answer-pipeline surface an empty question is
not reported as a client-input fault — `api_answer` still runs generation:
with an all-success oracle it answers `"pong"`, with an all-fatal oracle it
answers the busy sentence, so the generation outcome (not an input check)
determines the response. -/
theorem c7_empty_question_counterexample :
    apiAnswer 9000 48 (some "") none none (Except.error ()) (fun _ => attOk) =
      ⟨ "pong", true⟩ ∧
    apiAnswer 9000 48 (some "") none none (Except.error ()) (fun _ => att400) =
      ⟨ "LLM busy; try again.", false⟩ ∧
    apiAnswer 9000 48 (some "") none none (Except.error ()) (fun _ => attOk) ≠
      apiAnswer 9000 48 (some "") none none (Except.error ()) (fun _ => att400) := by
  refine ⟨rfl, rfl, ?_⟩
  intro h
  exact absurd (congrArg AnswerOut.pipelineOk h) (by decide)

/-- C7 amended: the empty-question client fault holds on the chat surface —
`chat_get` returns 422 without consulting the generation backend, and
`call_llama` rejects an empty prompt with 422 — but the answer-pipeline
surface (`api_answer`) performs no such check: its result is independent of
the question, and with an empty question generation still runs. -/
theorem c7_empty_question_fault (defaultMs ceilingMs serverMax : Int)
    (p q : Option String) (mt np : Option Int) (h : TimeoutHints)
    (b1 b2 : String → Int → Except HTTPErr String)
    (hempty : pyStrip (orStr p (orStr q "")) = "") :
    chatGet defaultMs ceilingMs serverMax p q mt np h b1 =
      Except.error ⟨422, "Missing 'prompt' (or 'q') parameter"⟩ ∧
    chatGet defaultMs ceilingMs serverMax p q mt np h b1 =
      chatGet defaultMs ceilingMs serverMax p q mt np h b2 ∧
    (∀ (pr : String) (n : Int), pyStrip pr = "" →
      callLlama pr n b1 = Except.error ⟨422, "Prompt is empty."⟩ ∧
      callLlama pr n b1 = callLlama pr n b2) ∧
    (∀ (td md : Int) (tH mH : Option Int) (f : Except Unit FetchResp)
        (att : Nat → Attempt) (q1 q2 : Option String),
      apiAnswer td md q1 tH mH f att = apiAnswer td md q2 tH mH f att) := by
  refine ⟨?_, ?_, ?_, ?_⟩
  · simp [chatGet, hempty]
  · simp [chatGet, hempty]
  · intro pr n hpr
    constructor <;> simp [callLlama, hpr]
  · intro td md tH mH f att q1 q2
    rfl

/-- Witness for C7 amended: `GET /chat` with an empty prompt returns the 422
fault, whatever the backend would answer. -/
theorem c7_empty_question_fault_witness :
    chatGet 30000 60000 64 (some "") none none none ⟨none, none⟩
      (fun p n => Except.ok "ans") =
      Except.error ⟨422, "Missing 'prompt' (or 'q') parameter"⟩ :=
  (c7_empty_question_fault 30000 60000 64 (some "") none none none ⟨none, none⟩
    (fun p n => Except.ok "ans") (fun p n => Except.error ⟨500, "x"⟩)
    (by decide)).1


/-- Witness for C6: a list-shaped sources field with an empty label keeps
the non-empty labels in order. -/
theorem c6_context_retriever_witness :
    (fetchLocalContext "q" 9000 (Except.ok
      ⟨none, none, SourcesVal.listOf ( "a" :: "" :: "b" :: []),
        SourcesVal.absent⟩)).2 =
      (( "a" :: "" :: "b" :: []).filter fun s => s ≠ "").map
        fun s => String.mk (s.data.take 80) :=
  (c6_context_retriever "q" 9000).2.2
    ⟨none, none, SourcesVal.listOf ( "a" :: "" :: "b" :: []), SourcesVal.absent⟩
    ( "a" :: "" :: "b" :: []) rfl (by decide)

end Spec2Proof
